import Mathlib

/-!
Verification of the two maintenance scripts in `mbuckingham74/meteo-weather`:

* `src/fix-test-mocks.py` (the *Scanner*): walks a directory of test files and
  classifies each file as needing a fetch-mock fix or not, based on the literal
  marker `global.fetch`, the regex `Promise\.resolve\(\s*\{[^}]*json:` and the
  literal `headers:`.
* `src/frontend/fix-weatherapi-tests.py` (the *Rewriter*): applies nine ordered
  regex replacement rules to one test file and writes the result back.

The scripts are embedded shallowly: file text is `List Char`, the concrete
regexes are embedded as executable matchers faithful to their shape, the
filesystem is an association list, and console output is a list of line tags.
-/

set_option maxRecDepth 20000

namespace Meteo

/-- ASCII whitespace recognized by the `\s` regex class (`[ \t\n\r\v\f]`).
The Python patterns in the scripts only ever meet ASCII text. -/
def isSpaceChar (c : Char) : Bool :=
  c == ' ' || c == '\t' || c == '\n' || c == '\r' || c == '\x0b' || c == '\x0c'

/-- `beginsWith pat s` is true when `pat` is an initial segment of `s`. -/
def beginsWith : List Char → List Char → Bool
  | [], _ => true
  | _ :: _, [] => false
  | a :: as, b :: bs => a == b && beginsWith as bs

/-- Python's `pat in s` substring test: `pat` occurs somewhere in `s`. -/
def containsSub (pat : List Char) : List Char → Bool
  | [] => beginsWith pat []
  | c :: cs => beginsWith pat (c :: cs) || containsSub pat cs

/-- Strip the literal `lit` from the front of `s`, returning the rest. -/
def stripLit : List Char → List Char → Option (List Char)
  | [], s => some s
  | _ :: _, [] => none
  | a :: as, b :: bs => if a == b then stripLit as bs else none

/-! ### Scanner: `src/fix-test-mocks.py`, `find_test_files_with_fetch_mocks`

The classification of one file's content (lines 36-44 of the source):

```
if 'global.fetch' in content:
    if re.search(r'Promise\.resolve\(\s*\{[^}]*json:', content) and 'headers:' not in content:
        files_needing_fix.append(filepath); print("❌ ...")
    else:
        print("✅ ...")
```
-/

def markerS : List Char := ("global.fetch").toList

def headersS : List Char := ("headers:").toList

def promiseLit : List Char := ("Promise.resolve(").toList

def jsonLit : List Char := ("json:").toList

/-- The `[^}]*json:` part of the scanner regex: from the current position,
zero or more characters none of which is `}` followed by the literal `json:`. -/
def jsonScan : List Char → Bool
  | [] => false
  | c :: cs => beginsWith jsonLit (c :: cs) || (!(c == '\x7d') && jsonScan cs)

/-- The `\s*\{` part of the scanner regex, followed by `[^}]*json:`:
skip whitespace, require `{`, then scan for the `json:` field.
Deterministic reading of the regex: `{` is not a whitespace character, so the
greedy `\s*` has a unique viable extent. -/
def resolveTail : List Char → Bool
  | [] => false
  | c :: cs =>
    if c == '\x7b' then jsonScan cs
    else if isSpaceChar c then resolveTail cs
    else false

/-- Does `Promise\.resolve\(\s*\{[^}]*json:` match starting exactly here? -/
def legacyHere (s : List Char) : Bool :=
  match stripLit promiseLit s with
  | some rest => resolveTail rest
  | none => false

/-- `re.search` of the legacy-mock regex: does it match anywhere in the text? -/
def legacySearch : List Char → Bool
  | [] => legacyHere []
  | c :: cs => legacyHere (c :: cs) || legacySearch cs

/-- Classification of a single file's text by the Scanner. -/
inductive FileClass
  | noMarker
  | needsFix
  | compliant
deriving DecidableEq, Repr

/-- Lines 36-44 of `fix-test-mocks.py`: no `global.fetch` marker means the file
is not examined; with the marker, the legacy regex plus absence of `headers:`
means "needs fix", anything else "already compliant". -/
def classifyContent (content : List Char) : FileClass :=
  if containsSub markerS content then
    if legacySearch content && !containsSub headersS content then FileClass.needsFix
    else FileClass.compliant
  else FileClass.noMarker

/-! ### Rewriter: `src/frontend/fix-weatherapi-tests.py`

Each of the nine patterns in `replacements` is, after unescaping, an
alternation of fixed literals and `\s*` gaps (the flags `re.MULTILINE` and
`re.DOTALL` are irrelevant: the patterns contain no `^`, `$` or unescaped `.`).
A pattern is embedded as a `List Tok`.  In every pattern each `\s*` is followed
by a literal starting with a non-whitespace character (`p` of `params` or `}`),
and no literal starts with whitespace, so the greedy `\s*` always has a unique
viable extent and matching is deterministic: skip all whitespace, then match
the following literal. -/

inductive Tok
  | lit (s : List Char)
  | ws
deriving DecidableEq, Repr

/-- Can the residual pattern match the empty string (only `\s*` gaps and
exhausted literals left)? -/
def nullable : List Tok → Bool
  | [] => true
  | Tok.lit [] :: ts => nullable ts
  | Tok.lit (_ :: _) :: _ => false
  | Tok.ws :: ts => nullable ts

/-- Is the residual pattern already complete at a position whose next
character is `a`?  A pending `\s*` is greedy, so the match only ends here when
`a` is not whitespace. -/
def doneAt : List Tok → Char → Bool
  | [], _ => true
  | Tok.lit [] :: ts, a => doneAt ts a
  | Tok.lit (_ :: _) :: _, _ => false
  | Tok.ws :: ts, a => !isSpaceChar a && doneAt ts a

/-- Feed one character to the residual pattern (deterministic, since a greedy
`\s*` keeps consuming whitespace and every following literal starts with a
non-whitespace character). -/
def stepTok : List Tok → Char → Option (List Tok)
  | [], _ => none
  | Tok.lit [] :: ts, a => stepTok ts a
  | Tok.lit (b :: l) :: ts, a => if a == b then some (Tok.lit l :: ts) else none
  | Tok.ws :: ts, a => if isSpaceChar a then some (Tok.ws :: ts) else stepTok ts a

/-- Run a token pattern at the head of `s`; on success return the unconsumed
rest of `s` (greedy match, as justified above). -/
def runPat : List Tok → List Char → Option (List Char)
  | p, [] => if nullable p then some [] else none
  | p, a :: s =>
    if doneAt p a then some (a :: s)
    else
      match stepTok p a with
      | none => none
      | some q => runPat q s

/-- Does the pattern match anywhere in the text (`re.search`)? -/
def hasMatchIn (p : List Tok) : List Char → Bool
  | [] => (runPat p []).isSome
  | c :: cs => (runPat p (c :: cs)).isSome || hasMatchIn p cs

/-- `re.sub`, with an explicit skip counter: `n > 0` means the scanner is
still inside a span that was just replaced and must move past `n` more
characters before trying the pattern again.  A zero-width match (impossible
for the ten concrete patterns, whose first token is a non-empty literal)
inserts `r` and advances one character, as Python does. -/
def subSkip (p : List Tok) (r : List Char) : Nat → List Char → List Char
  | _ + 1, [] => []
  | n + 1, _ :: cs => subSkip p r n cs
  | 0, [] => if (runPat p []).isSome then r else []
  | 0, c :: cs =>
    match runPat p (c :: cs) with
    | none => c :: subSkip p r 0 cs
    | some rest =>
      if rest.length = cs.length + 1 then r ++ c :: subSkip p r 0 cs
      else r ++ subSkip p r (cs.length - rest.length) cs

/-- `re.sub pattern replacement content`: replace every leftmost
non-overlapping match of `p` in the text by `r`, scanning left to right. -/
def subAll (p : List Tok) (r : List Char) (s : List Char) : List Char :=
  subSkip p r 0 s

/-! The ten replacement rules of `replacements` (lines 17-53 of the source),
in source order.  Strings write `{` as `\x7b`, `}` as `\x7d` and `'` as `\'`. -/

def pat1 : List Tok :=
  [Tok.lit (("expect(apiRequest).toHaveBeenCalledWith(\'/weather/hourly/Boston\', \x7b").toList),
   Tok.ws,
   Tok.lit (("params: \x7b hours: 48 \x7d,").toList),
   Tok.ws,
   Tok.lit (("\x7d);").toList)]

def rep1 : List Char :=
  ("expect(apiRequest).toHaveBeenCalledWith(\'/weather/hourly/Boston?hours=48\', \x7b method: \'GET\' \x7d);").toList

def pat2 : List Tok :=
  [Tok.lit (("expect(apiRequest).toHaveBeenCalledWith(\'/weather/hourly/Boston\', \x7b").toList),
   Tok.ws,
   Tok.lit (("params: \x7b hours: 72 \x7d,").toList),
   Tok.ws,
   Tok.lit (("\x7d);").toList)]

def rep2 : List Char :=
  ("expect(apiRequest).toHaveBeenCalledWith(\'/weather/hourly/Boston?hours=72\', \x7b method: \'GET\' \x7d);").toList

def pat3 : List Tok :=
  [Tok.lit (("expect(apiRequest).toHaveBeenCalledWith(\'/locations\', \x7b").toList),
   Tok.ws,
   Tok.lit (("params: \x7b page: 1, limit: 50 \x7d,").toList),
   Tok.ws,
   Tok.lit (("\x7d);").toList)]

def rep3 : List Char :=
  ("expect(apiRequest).toHaveBeenCalledWith(\'/locations?page=1&limit=50\', \x7b method: \'GET\' \x7d);").toList

def pat4 : List Tok :=
  [Tok.lit (("expect(apiRequest).toHaveBeenCalledWith(\'/locations\', \x7b").toList),
   Tok.ws,
   Tok.lit (("params: \x7b page: 2, limit: 25 \x7d,").toList),
   Tok.ws,
   Tok.lit (("\x7d);").toList)]

def rep4 : List Char :=
  ("expect(apiRequest).toHaveBeenCalledWith(\'/locations?page=2&limit=25\', \x7b method: \'GET\' \x7d);").toList

def pat5 : List Tok :=
  [Tok.lit (("expect(apiRequest).toHaveBeenCalledWith(\'/locations/geocode\', \x7b").toList),
   Tok.ws,
   Tok.lit (("params: \x7b address: \'London, UK\', limit: 10 \x7d,").toList),
   Tok.ws,
   Tok.lit (("\x7d);").toList)]

def rep5 : List Char :=
  ("expect(apiRequest).toHaveBeenCalledWith(\'/locations/geocode?address=London%2C+UK&limit=10\', \x7b method: \'GET\' \x7d);").toList

def pat6 : List Tok :=
  [Tok.lit (("expect(apiRequest).toHaveBeenCalledWith(\'/locations/geocode\', \x7b").toList),
   Tok.ws,
   Tok.lit (("params: \x7b address: \'Paris, France\', limit: 5 \x7d,").toList),
   Tok.ws,
   Tok.lit (("\x7d);").toList)]

def rep6 : List Char :=
  ("expect(apiRequest).toHaveBeenCalledWith(\'/locations/geocode?address=Paris%2C+France&limit=5\', \x7b method: \'GET\' \x7d);").toList

def pat7 : List Tok :=
  [Tok.lit (("expect(apiRequest).toHaveBeenCalledWith(\'/locations/reverse\', \x7b").toList),
   Tok.ws,
   Tok.lit (("params: \x7b lat: 51.5074, lon: -0.1278 \x7d,").toList),
   Tok.ws,
   Tok.lit (("\x7d);").toList)]

def rep7 : List Char :=
  ("expect(apiRequest).toHaveBeenCalledWith(\'/locations/reverse?lat=51.5074&lon=-0.1278\', \x7b method: \'GET\' \x7d);").toList

def pat8 : List Tok :=
  [Tok.lit (("expect(apiRequest).toHaveBeenCalledWith(\'/locations/reverse\', \x7b").toList),
   Tok.ws,
   Tok.lit (("params: \x7b lat: -33.8688, lon: 151.2093 \x7d,").toList),
   Tok.ws,
   Tok.lit (("\x7d);").toList)]

def rep8 : List Char :=
  ("expect(apiRequest).toHaveBeenCalledWith(\'/locations/reverse?lat=-33.8688&lon=151.2093\', \x7b method: \'GET\' \x7d);").toList

def pat9 : List Tok :=
  [Tok.lit (("expect(apiRequest).toHaveBeenCalledWith(\'/locations/popular\');").toList)]

def rep9 : List Char :=
  ("expect(apiRequest).toHaveBeenCalledWith(\'/locations/popular\', \x7b method: \'GET\' \x7d);").toList

def pat10 : List Tok :=
  [Tok.lit (("expect(apiRequest).toHaveBeenCalledWith(\'/health\');").toList)]

def rep10 : List Char :=
  ("expect(apiRequest).toHaveBeenCalledWith(\'/health\', \x7b method: \'GET\' \x7d);").toList

/-- Outcome of running a token pattern against a piece `u` of text that is
followed by further, unknown text: the match can fail inside `u`, complete
strictly inside `u` (leaving a non-empty rest of `u`), or exhaust `u` with a
residual pattern still to be matched against whatever follows. -/
inductive PRes
  | failed
  | inner
  | consumed (rest : List Tok)
deriving DecidableEq, BEq, Repr

/-- Drop exhausted leading literals from a residual pattern. -/
def norm : List Tok → List Tok
  | Tok.lit [] :: ts => norm ts
  | ts => ts

/-- Run a pattern against the piece `u` of a longer text. -/
def runPart : List Tok → List Char → PRes
  | ts, [] => PRes.consumed (norm ts)
  | ts, a :: s =>
    if doneAt ts a then PRes.inner
    else
      match stepTok ts a with
      | none => PRes.failed
      | some q => runPart q s

/-- All intermediate matcher states of a pattern: every partial drop of a
literal token together with the pending tail, and every tail state. -/
def stateList : List Tok → List (List Tok)
  | [] => []
  | Tok.lit l :: ts =>
    ((List.range l.length).map (fun m => Tok.lit (l.drop m) :: ts)) ++ stateList ts
  | Tok.ws :: ts => (Tok.ws :: ts) :: stateList ts

/-- `noCross p r` checks that no match attempt of pattern `p` can overlap an
inserted copy of the replacement string `r`: every matcher state of `p` fails
inside `r`, and `p` itself fails inside every proper suffix of `r`. -/
def noCross (p : List Tok) (r : List Char) : Bool :=
  ((stateList p).all (fun q => decide (runPart q r = PRes.failed))) &&
  ((List.range r.length).all (fun k => decide (runPart p (r.drop k) = PRes.failed)))

/-- The `replacements` list of `fix-weatherapi-tests.py` (note: ten rules). -/
def replacements : List (List Tok × List Char) :=
  [(pat1, rep1), (pat2, rep2), (pat3, rep3), (pat4, rep4), (pat5, rep5),
   (pat6, rep6), (pat7, rep7), (pat8, rep8), (pat9, rep9), (pat10, rep10)]

/-- The `for pattern, replacement in replacements: content = re.sub(...)` loop:
apply every rule in order to the current content. -/
def transform (t : List Char) : List Char :=
  replacements.foldl (fun acc pr => subAll pr.1 pr.2 acc) t

/-! ### Filesystem and console model

The scanner walks a directory and then processes a list of test-file paths;
the walk itself only lists names, so the model takes the resulting path list
as input.  A filesystem maps paths to read outcomes; a path mapped to
`Except.error` models a file whose read raises (permissions, encoding, race
deletion), and a missing path reads as an error as well. -/

abbrev FSys : Type := List (String × Except String (List Char))

def fsRead (fs : FSys) (p : String) : Except String (List Char) :=
  match fs.find? (fun e => e.1 == p) with
  | none => Except.error ("No such file: " ++ p)
  | some e => e.2

def fsWrite (fs : FSys) (p : String) (c : List Char) : FSys :=
  if fs.any (fun e => e.1 == p) then
    fs.map (fun e => if e.1 == p then (p, Except.ok c) else e)
  else fs ++ [(p, Except.ok c)]

/-- A filesystem side effect performed by a script. -/
inductive FsOp
  | read (p : String)
  | write (p : String) (c : List Char)
deriving DecidableEq

def applyOp (fs : FSys) : FsOp → FSys
  | FsOp.read _ => fs
  | FsOp.write p c => fsWrite fs p c

def applyOps (fs : FSys) (ops : List FsOp) : FSys :=
  ops.foldl applyOp fs

/-- One tagged console line of the Scanner.  `found n` is the pre-scan
`Found {n} test files` line (source line 25); `bad`/`good`/`warn` are the
per-file lines of the loop (lines 40-46); `sep`, `fixCount` and `fixPath` are
the post-loop summary (lines 48-51). -/
inductive ScanLine
  | found (n : Nat)
  | bad (path : String)
  | good (path : String)
  | warn (path : String) (err : String)
  | sep
  | fixCount (n : Nat)
  | fixPath (path : String)
deriving DecidableEq

/-- Effects and output of one iteration of the scanner's file loop. -/
structure ScanAcc where
  ops : List FsOp
  lines : List ScanLine
  fix : List String
deriving DecidableEq

/-- Lines 30-46 of `fix-test-mocks.py`: read one file; on failure warn and
skip, otherwise classify and report. -/
def scanFile (fs : FSys) (path : String) : ScanAcc :=
  match fsRead fs path with
  | Except.error e => ⟨[FsOp.read path], [ScanLine.warn path e], []⟩
  | Except.ok content =>
    match classifyContent content with
    | FileClass.needsFix => ⟨[FsOp.read path], [ScanLine.bad path], [path]⟩
    | FileClass.compliant => ⟨[FsOp.read path], [ScanLine.good path], []⟩
    | FileClass.noMarker => ⟨[FsOp.read path], [], []⟩

/-- The scanner's `for filepath in test_files` loop. -/
def scanLoop (fs : FSys) : List String → ScanAcc
  | [] => ⟨[], [], []⟩
  | p :: ps =>
    let a := scanFile fs p
    let b := scanLoop fs ps
    ⟨a.ops ++ b.ops, a.lines ++ b.lines, a.fix ++ b.fix⟩

/-- The summary printed after the loop (lines 48-51): a separator, the count
of files needing fix, and their paths. -/
def scanSummary (fs : FSys) (paths : List String) : List ScanLine :=
  ScanLine.sep :: ScanLine.fixCount (scanLoop fs paths).fix.length ::
    ((scanLoop fs paths).fix.map ScanLine.fixPath)

/-- Full console output of one scanner run: the pre-scan file count (line
25), the per-file lines, then the summary. -/
def scannerOutput (fs : FSys) (paths : List String) : List ScanLine :=
  ScanLine.found paths.length :: ((scanLoop fs paths).lines ++ scanSummary fs paths)

/-! ### Rewriter, filesystem level (`fix-weatherapi-tests.py` lines 11-64) -/

/-- Filesystem effects of one rewriter run: read the target; if the read
raises, the exception is unhandled and the process dies; otherwise the
transformed content is written back unconditionally. -/
def rewriterOps (fs : FSys) (path : String) : List FsOp :=
  match fsRead fs path with
  | Except.error _ => [FsOp.read path]
  | Except.ok c => [FsOp.read path, FsOp.write path (transform c)]

/-- One rewriter run: `none` models the unhandled-exception termination on a
failed read; on success it returns the final filesystem and the printed
`Applied {len(replacements)} replacements` count. -/
def runRewriter (fs : FSys) (path : String) : Option (FSys × Nat) :=
  match fsRead fs path with
  | Except.error _ => none
  | Except.ok c => some (fsWrite fs path (transform c), replacements.length)

/-- Is this filesystem operation a write? -/
def isWriteOp : FsOp → Bool
  | FsOp.write _ _ => true
  | FsOp.read _ => false

/-- Number of positions of the text at which the pattern matches. -/
def countPos (p : List Tok) : List Char → Nat
  | [] => if (runPat p []).isSome then 1 else 0
  | c :: cs => (if (runPat p (c :: cs)).isSome then 1 else 0) + countPos p cs

/-- `s` is a suffix of `t`. -/
def SufOf (s t : List Char) : Prop := ∃ a, a ++ s = t

/-- `s` is an initial segment of `t`. -/
def PreOf (s t : List Char) : Prop := ∃ b, s ++ b = t

/-- `s` is a contiguous piece of `t`. -/
def PieceOf (s t : List Char) : Prop := ∃ a b, a ++ (s ++ b) = t

/-- The interleaving of untouched chunks with copies of the replacement
string `r` that makes up the output of `re.sub`. -/
def joinR (r : List Char) : List (List Char) → List Char
  | [] => []
  | [u] => u
  | u :: us => u ++ (r ++ joinR r us)

/-- Every non-empty suffix of `u` fails to start a match of `p` in at least
one right context. -/
def ChunkOk (p : List Tok) (u : List Char) : Prop :=
  ∀ s, s ≠ [] → SufOf s u → ∃ y, runPat p (s ++ y) = none

/-- The rewriter's rule loop over an arbitrary rule list. -/
def applyRules (l : List (List Tok × List Char)) (t : List Char) : List Char :=
  l.foldl (fun acc pr => subAll pr.1 pr.2 acc) t

/-! ### Concrete test data used by the claim witnesses -/

/-- A test file in the style of `weatherApi.test.js` containing exactly one
instance of each of the ten call-expression shapes targeted by the rewriter. -/
def orig1 : String :=
  "expect(apiRequest).toHaveBeenCalledWith(\'/weather/hourly/Boston\', \x7b\n        params: \x7b hours: 48 \x7d,\n      \x7d);"

def orig2 : String :=
  "expect(apiRequest).toHaveBeenCalledWith(\'/weather/hourly/Boston\', \x7b\n        params: \x7b hours: 72 \x7d,\n      \x7d);"

def orig3 : String :=
  "expect(apiRequest).toHaveBeenCalledWith(\'/locations\', \x7b\n        params: \x7b page: 1, limit: 50 \x7d,\n      \x7d);"

def orig4 : String :=
  "expect(apiRequest).toHaveBeenCalledWith(\'/locations\', \x7b\n        params: \x7b page: 2, limit: 25 \x7d,\n      \x7d);"

def orig5 : String :=
  "expect(apiRequest).toHaveBeenCalledWith(\'/locations/geocode\', \x7b\n        params: \x7b address: \'London, UK\', limit: 10 \x7d,\n      \x7d);"

def orig6 : String :=
  "expect(apiRequest).toHaveBeenCalledWith(\'/locations/geocode\', \x7b\n        params: \x7b address: \'Paris, France\', limit: 5 \x7d,\n      \x7d);"

def orig7 : String :=
  "expect(apiRequest).toHaveBeenCalledWith(\'/locations/reverse\', \x7b\n        params: \x7b lat: 51.5074, lon: -0.1278 \x7d,\n      \x7d);"

def orig8 : String :=
  "expect(apiRequest).toHaveBeenCalledWith(\'/locations/reverse\', \x7b\n        params: \x7b lat: -33.8688, lon: 151.2093 \x7d,\n      \x7d);"

def orig9 : String :=
  "expect(apiRequest).toHaveBeenCalledWith(\'/locations/popular\');"

def orig10 : String :=
  "expect(apiRequest).toHaveBeenCalledWith(\'/health\');"

def c2Input : List Char :=
  (orig1 ++ "\n" ++ orig2 ++ "\n" ++ orig3 ++ "\n" ++ orig4 ++ "\n" ++ orig5 ++ "\n" ++
   orig6 ++ "\n" ++ orig7 ++ "\n" ++ orig8 ++ "\n" ++ orig9 ++ "\n" ++ orig10).toList

/-- The expected result: each shape replaced by its apiRequest-style form. -/
def c2Output : List Char :=
  (String.mk rep1 ++ "\n" ++ String.mk rep2 ++ "\n" ++ String.mk rep3 ++ "\n" ++
   String.mk rep4 ++ "\n" ++ String.mk rep5 ++ "\n" ++ String.mk rep6 ++ "\n" ++
   String.mk rep7 ++ "\n" ++ String.mk rep8 ++ "\n" ++ String.mk rep9 ++ "\n" ++
   String.mk rep10).toList

/-- Content with the marker, the legacy pattern and a `headers:` field: the
precedence case of C1 (classified compliant despite the legacy pattern). -/
def c1w : List Char :=
  ("global.fetch = vi.fn(() => Promise.resolve(\x7b json: x \x7d)); headers: \x7b\x7d").toList

/-- A mock whose nested object closes before the `json:` field: the regex
cannot cross the `}`, so this is compliant although `headers:` is absent. -/
def c9nested : List Char :=
  ("global.fetch = vi.fn(() => Promise.resolve(\x7b ok: true, status: \x7b code: 200 \x7d, json: () => data \x7d))").toList

/-- A text on which the legacy regex does match, for the C9 witness. -/
def c9wit : List Char :=
  ("global.fetch; Promise.resolve(\x7b ok: true, json: x \x7d)").toList

/-- A target file whose content matches none of the rewriter's patterns. -/
def c4content : List Char := ("const x = 1;\nconsole.log(x);\n").toList

def c4fs : FSys := [(("weatherApi.test.js"), Except.ok c4content)]

/-- Scanner witness filesystem: one readable non-compliant file; the path
`b.test.js` is absent, so reading it fails. -/
def c5fs : FSys :=
  [(("a.test.js"), Except.ok (("global.fetch = vi.fn(); Promise.resolve(\x7b ok: true, json: x \x7d)").toList))]

/-- A marker-free test file content. -/
def c6content : List Char := ("nothing interesting here").toList

/-- Scanner counterexample filesystem for C6: a single marker-free file. -/
def c6fs : FSys := [(("t1.test.js"), Except.ok c6content)]

def c6paths : List String := [("t1.test.js")]

/-! ### Soundness of the scanner's legacy-pattern matcher -/

theorem beginsWith_sound {pat s : List Char} (h : beginsWith pat s = true) :
    ∃ rest, s = pat ++ rest := by
  induction pat generalizing s with
  | nil => exact ⟨s, rfl⟩
  | cons a as ih =>
    cases s with
    | nil => simp [beginsWith] at h
    | cons b bs =>
      simp only [beginsWith, Bool.and_eq_true, beq_iff_eq] at h
      obtain ⟨rest, hr⟩ := ih h.2
      exact ⟨rest, by simp [h.1, hr]⟩

theorem stripLit_sound {lit s r : List Char} (h : stripLit lit s = some r) :
    s = lit ++ r := by
  induction lit generalizing s with
  | nil =>
    simp only [stripLit, Option.some_inj] at h
    simp [h]
  | cons a as ih =>
    cases s with
    | nil => simp [stripLit] at h
    | cons b bs =>
      simp only [stripLit] at h
      by_cases hab : a = b
      · simp only [hab, beq_self_eq_true, if_pos] at h
        simp [hab, ih h]
      · simp [beq_eq_false_iff_ne.mpr hab] at h

theorem jsonScan_sound {s : List Char} (h : jsonScan s = true) :
    ∃ m b, s = m ++ (jsonLit ++ b) ∧ m.all (fun c => !(c == '\x7d')) = true := by
  induction s with
  | nil => simp [jsonScan] at h
  | cons c cs ih =>
    simp only [jsonScan, Bool.or_eq_true, Bool.and_eq_true] at h
    rcases h with h | ⟨hne, hrec⟩
    · obtain ⟨rest, hr⟩ := beginsWith_sound h
      exact ⟨[], rest, by simp [hr], rfl⟩
    · obtain ⟨m, b, hmb, hm⟩ := ih hrec
      exact ⟨c :: m, b, by simp [hmb], by simp [hm, hne]⟩

theorem resolveTail_sound {s : List Char} (h : resolveTail s = true) :
    ∃ w r2, s = w ++ '\x7b' :: r2 ∧ w.all isSpaceChar = true ∧ jsonScan r2 = true := by
  induction s with
  | nil => simp [resolveTail] at h
  | cons c cs ih =>
    simp only [resolveTail] at h
    by_cases hb : c = '\x7b'
    · refine ⟨[], cs, by simp [hb], rfl, ?_⟩
      simpa [hb] using h
    · rw [if_neg (by simp [hb])] at h
      by_cases hs : isSpaceChar c = true
      · rw [if_pos hs] at h
        obtain ⟨w, r2, hw, hall, hj⟩ := ih h
        exact ⟨c :: w, r2, by simp [hw], by simp [hall, hs], hj⟩
      · rw [if_neg hs] at h
        exact absurd h (by simp)

theorem legacyHere_sound {s : List Char} (h : legacyHere s = true) :
    ∃ w m b, s = promiseLit ++ (w ++ '\x7b' :: (m ++ (jsonLit ++ b))) ∧
      w.all isSpaceChar = true ∧ m.all (fun c => !(c == '\x7d')) = true := by
  unfold legacyHere at h
  cases hst : stripLit promiseLit s with
  | none => rw [hst] at h; exact absurd h (by simp)
  | some rest =>
    rw [hst] at h
    obtain ⟨w, r2, hw, hall, hj⟩ := resolveTail_sound h
    obtain ⟨m, b, hmb, hm⟩ := jsonScan_sound hj
    exact ⟨w, m, b, by rw [stripLit_sound hst, hw, hmb], hall, hm⟩

/-- Any match of the scanner regex `Promise\.resolve\(\s*\{[^}]*json:`
exhibits a whitespace gap and a `}`-free gap: text before the match, the
literal `Promise.resolve(`, whitespace, `{`, a run of non-`}` characters, and
the literal `json:`. -/
theorem legacySearch_sound {t : List Char} (h : legacySearch t = true) :
    ∃ a w m b, t = a ++ promiseLit ++ (w ++ '\x7b' :: (m ++ (jsonLit ++ b))) ∧
      w.all isSpaceChar = true ∧ m.all (fun c => !(c == '\x7d')) = true := by
  induction t with
  | nil =>
    simp only [legacySearch] at h
    obtain ⟨w, m, b, hmb, hall, hm⟩ := legacyHere_sound h
    exact ⟨[], w, m, b, by simpa using hmb, hall, hm⟩
  | cons c cs ih =>
    simp only [legacySearch, Bool.or_eq_true] at h
    rcases h with h | h
    · obtain ⟨w, m, b, hmb, hall, hm⟩ := legacyHere_sound h
      exact ⟨[], w, m, b, by simpa using hmb, hall, hm⟩
    · obtain ⟨a, w, m, b, hmb, hall, hm⟩ := ih h
      exact ⟨c :: a, w, m, b, by simp [hmb], hall, hm⟩

/-! ### Pieces of lists -/

theorem sufOf_refl (s : List Char) : SufOf s s := ⟨[], rfl⟩

theorem sufOf_cons {s t : List Char} (c : Char) (h : SufOf s t) : SufOf s (c :: t) := by
  obtain ⟨a, ha⟩ := h
  exact ⟨c :: a, by simp [ha]⟩

theorem sufOf_trans {s t u : List Char} (h1 : SufOf s t) (h2 : SufOf t u) : SufOf s u := by
  obtain ⟨a, ha⟩ := h1
  obtain ⟨b, hb⟩ := h2
  exact ⟨b ++ a, by rw [List.append_assoc, ha, hb]⟩

theorem sufOf_length {s t : List Char} (h : SufOf s t) : s.length ≤ t.length := by
  obtain ⟨a, ha⟩ := h
  have := congrArg List.length ha
  simp at this
  omega

theorem sufOf_cons_elim {s : List Char} {c : Char} {t : List Char}
    (h : SufOf s (c :: t)) : s = c :: t ∨ SufOf s t := by
  obtain ⟨a, ha⟩ := h
  cases a with
  | nil => exact Or.inl (by simpa using ha)
  | cons x xs => exact Or.inr ⟨xs, by simpa using congrArg List.tail ha⟩

theorem sufOf_eq_drop {s t : List Char} (h : SufOf s t) :
    s = t.drop (t.length - s.length) := by
  obtain ⟨a, ha⟩ := h
  subst ha
  have hl : (a ++ s).length - s.length = a.length := by simp
  rw [hl, List.drop_left]

theorem preOf_pieceOf {s t : List Char} (h : PreOf s t) : PieceOf s t := by
  obtain ⟨b, hb⟩ := h
  exact ⟨[], b, by simp [hb]⟩

theorem pieceOf_cons {s t : List Char} (c : Char) (h : PieceOf s t) : PieceOf s (c :: t) := by
  obtain ⟨a, b, hab⟩ := h
  exact ⟨c :: a, b, by simp [hab]⟩

theorem pieceOf_of_sufOf_piece {s u t : List Char} (hu : PieceOf u t) (hs : SufOf s u) :
    ∃ b, SufOf (s ++ b) t := by
  obtain ⟨x, y, hxy⟩ := hu
  obtain ⟨a, ha⟩ := hs
  refine ⟨y, x ++ a, ?_⟩
  rw [← hxy, ← ha]
  simp

/-! ### Basic automaton lemmas -/

theorem norm_nullable (ts : List Tok) : nullable (norm ts) = nullable ts := by
  induction ts with
  | nil => rfl
  | cons t ts ih =>
    cases t with
    | ws => rfl
    | lit l =>
      cases l with
      | nil => rw [show norm (Tok.lit [] :: ts) = norm ts from rfl, ih]; rfl
      | cons b l' => rfl

theorem norm_doneAt (ts : List Tok) (a : Char) : doneAt (norm ts) a = doneAt ts a := by
  induction ts with
  | nil => rfl
  | cons t ts ih =>
    cases t with
    | ws => rfl
    | lit l =>
      cases l with
      | nil => rw [show norm (Tok.lit [] :: ts) = norm ts from rfl, ih]; rfl
      | cons b l' => rfl

theorem norm_stepTok (ts : List Tok) (a : Char) : stepTok (norm ts) a = stepTok ts a := by
  induction ts with
  | nil => rfl
  | cons t ts ih =>
    cases t with
    | ws => rfl
    | lit l =>
      cases l with
      | nil => rw [show norm (Tok.lit [] :: ts) = norm ts from rfl, ih]; rfl
      | cons b l' => rfl

theorem norm_runPat (ts : List Tok) (s : List Char) : runPat (norm ts) s = runPat ts s := by
  cases s with
  | nil => simp [runPat, norm_nullable]
  | cons a s => simp [runPat, norm_doneAt, norm_stepTok]

theorem doneAt_nullable {ts : List Tok} {a : Char} (h : doneAt ts a = true) :
    nullable ts = true := by
  induction ts with
  | nil => rfl
  | cons t ts ih =>
    cases t with
    | ws =>
      simp only [doneAt, Bool.and_eq_true] at h
      simpa [nullable] using ih h.2
    | lit l =>
      cases l with
      | nil => simpa [nullable] using ih (by simpa [doneAt] using h)
      | cons b l' => simp [doneAt] at h

theorem runPat_nil_state (v : List Char) : runPat [] v = some v := by
  cases v with
  | nil => simp [runPat, nullable]
  | cons a s => simp [runPat, doneAt]

theorem runPat_suffix {p : List Tok} {s rest : List Char} (h : runPat p s = some rest) :
    SufOf rest s := by
  induction s generalizing p with
  | nil =>
    simp only [runPat] at h
    by_cases hn : nullable p = true
    · rw [if_pos hn] at h
      cases h
      exact sufOf_refl []
    · simp [hn] at h
  | cons a s ih =>
    simp only [runPat] at h
    by_cases hd : doneAt p a = true
    · rw [if_pos hd] at h
      cases h
      exact sufOf_refl _
    · rw [if_neg hd] at h
      cases hst : stepTok p a with
      | none => rw [hst] at h; cases h
      | some q =>
        rw [hst] at h
        exact sufOf_cons a (ih h)

/-! ### Running a pattern across an append boundary -/

theorem runPart_consumed_append {q q' : List Tok} {u : List Char}
    (h : runPart q u = PRes.consumed q') (v : List Char) :
    runPat q (u ++ v) = runPat q' v := by
  induction u generalizing q with
  | nil =>
    simp only [runPart, PRes.consumed.injEq] at h
    rw [List.nil_append, ← h, norm_runPat]
  | cons a u ih =>
    simp only [runPart] at h
    by_cases hd : doneAt q a = true
    · rw [if_pos hd] at h; cases h
    · rw [if_neg hd] at h
      cases hst : stepTok q a with
      | none => rw [hst] at h; cases h
      | some ts' =>
        rw [hst] at h
        rw [List.cons_append]
        simp only [runPat, if_neg hd, hst]
        exact ih h

theorem runPart_failed_append {q : List Tok} {u : List Char}
    (h : runPart q u = PRes.failed) (v : List Char) :
    runPat q (u ++ v) = none := by
  induction u generalizing q with
  | nil => simp [runPart] at h
  | cons a u ih =>
    simp only [runPart] at h
    by_cases hd : doneAt q a = true
    · rw [if_pos hd] at h; cases h
    · rw [if_neg hd] at h
      cases hst : stepTok q a with
      | none =>
        rw [List.cons_append]
        simp [runPat, if_neg hd, hst]
      | some ts' =>
        rw [hst] at h
        rw [List.cons_append]
        simp only [runPat, if_neg hd, hst]
        exact ih h

theorem runPart_inner_append {q : List Tok} {u : List Char}
    (h : runPart q u = PRes.inner) (v : List Char) :
    (runPat q (u ++ v)).isSome = true := by
  induction u generalizing q with
  | nil => simp [runPart] at h
  | cons a u ih =>
    simp only [runPart] at h
    by_cases hd : doneAt q a = true
    · rw [List.cons_append]
      simp [runPat, if_pos hd]
    · rw [if_neg hd] at h
      cases hst : stepTok q a with
      | none => rw [hst] at h; cases h
      | some ts' =>
        rw [hst] at h
        rw [List.cons_append]
        simp only [runPat, if_neg hd, hst]
        exact ih h

/-! ### Reachable matcher states -/

theorem stateList_self (p : List Tok) : norm p = [] ∨ norm p ∈ stateList p := by
  induction p with
  | nil => exact Or.inl rfl
  | cons t ts ih =>
    cases t with
    | ws => exact Or.inr (by simp [norm, stateList])
    | lit l =>
      cases l with
      | nil =>
        rcases ih with h | h
        · exact Or.inl (by simpa [norm] using h)
        · refine Or.inr ?_
          simp only [norm, stateList]
          simpa using h
      | cons b l' =>
        refine Or.inr ?_
        simp only [norm, stateList, List.mem_append, List.mem_map]
        exact Or.inl ⟨0, by simp⟩

theorem stepTok_closure {p : List Tok} {a : Char} :
    ∀ q ∈ stateList p, ∀ {ts'}, stepTok q a = some ts' →
      norm ts' = [] ∨ norm ts' ∈ stateList p := by
  induction p with
  | nil => intro q hq; simp [stateList] at hq
  | cons t ts ih =>
    intro q hq ts' hst
    cases t with
    | ws =>
      simp only [stateList, List.mem_cons] at hq
      rcases hq with rfl | hq
      · simp only [stepTok] at hst
        by_cases hsp : isSpaceChar a = true
        · rw [if_pos hsp] at hst
          cases hst
          exact Or.inr (by simp [norm, stateList])
        · rw [if_neg hsp] at hst
          rcases stateList_self ts with hn | hn
          · rw [← norm_stepTok, hn] at hst
            simp [stepTok] at hst
          · rw [← norm_stepTok] at hst
            rcases ih (norm ts) hn hst with h | h
            · exact Or.inl h
            · exact Or.inr (by simp [stateList, h])
      · rcases ih q hq hst with h | h
        · exact Or.inl h
        · exact Or.inr (by simp [stateList, h])
    | lit l =>
      simp only [stateList, List.mem_append, List.mem_map, List.mem_range] at hq
      rcases hq with ⟨m, hm, rfl⟩ | hq
      · have hdrop : l.drop m = l.get ⟨m, hm⟩ :: l.drop (m + 1) := List.drop_eq_get_cons hm
        rw [hdrop] at hst
        simp only [stepTok] at hst
        by_cases hab : a == l.get ⟨m, hm⟩
        · rw [if_pos hab] at hst
          cases hst
          by_cases hlen : m + 1 < l.length
          · have : l.drop (m + 1) ≠ [] := by
              intro hnil
              have := congrArg List.length hnil
              simp at this
              omega
            cases hd : l.drop (m + 1) with
            | nil => exact absurd hd this
            | cons x xs =>
              refine Or.inr ?_
              simp only [norm, hd, stateList, List.mem_append, List.mem_map, List.mem_range]
              exact Or.inl ⟨m + 1, hlen, by rw [hd]⟩
          · have hnil : l.drop (m + 1) = [] := by
              apply List.drop_eq_nil_of_le
              omega
            rw [hnil]
            have : norm (Tok.lit [] :: ts) = norm ts := rfl
            rw [this]
            rcases stateList_self ts with h | h
            · exact Or.inl h
            · exact Or.inr (by simp [stateList, h])
        · rw [if_neg (by simpa using hab)] at hst
          cases hst
      · rcases ih q hq hst with h | h
        · exact Or.inl h
        · exact Or.inr (by simp [stateList, h])

theorem runPart_reach {p : List Tok} {u : List Char} {q : List Tok}
    (h : runPart p u = PRes.consumed q) : q = [] ∨ q ∈ stateList p := by
  suffices H : ∀ (u : List Char) (q0 : List Tok),
      (norm q0 = [] ∨ norm q0 ∈ stateList p) →
      runPart q0 u = PRes.consumed q → q = [] ∨ q ∈ stateList p by
    exact H u p (stateList_self p) h
  intro u
  induction u with
  | nil =>
    intro q0 hq0 hrun
    simp only [runPart, PRes.consumed.injEq] at hrun
    rw [← hrun]
    exact hq0
  | cons a u ih =>
    intro q0 hq0 hrun
    simp only [runPart] at hrun
    by_cases hd : doneAt q0 a = true
    · rw [if_pos hd] at hrun; cases hrun
    · rw [if_neg hd] at hrun
      cases hst : stepTok q0 a with
      | none => rw [hst] at hrun; cases hrun
      | some ts' =>
        rw [hst] at hrun
        rcases hq0 with hn | hn
        · rw [← norm_stepTok, hn] at hst
          simp [stepTok] at hst
        · rw [← norm_stepTok] at hst
          exact ih ts' (stepTok_closure (norm q0) hn hst) hrun

/-! ### Characterizing `hasMatchIn` -/

theorem hasMatchIn_iff {p : List Tok} {t : List Char} :
    hasMatchIn p t = true ↔ ∃ s, SufOf s t ∧ (runPat p s).isSome = true := by
  induction t with
  | nil =>
    simp only [hasMatchIn]
    constructor
    · intro h
      exact ⟨[], sufOf_refl [], h⟩
    · rintro ⟨s, hs, hsome⟩
      obtain ⟨a, ha⟩ := hs
      have : s = [] := by
        cases a with
        | nil => simpa using ha.symm
        | cons x xs => simp at ha
      rw [this] at hsome
      exact hsome
  | cons c cs ih =>
    simp only [hasMatchIn, Bool.or_eq_true, ih]
    constructor
    · rintro (h | ⟨s, hs, hsome⟩)
      · exact ⟨c :: cs, sufOf_refl _, h⟩
      · exact ⟨s, sufOf_cons c hs, hsome⟩
    · rintro ⟨s, hs, hsome⟩
      rcases sufOf_cons_elim hs with rfl | hs'
      · exact Or.inl hsome
      · exact Or.inr ⟨s, hs', hsome⟩

theorem hasMatchIn_of_suffix {p : List Tok} {s t : List Char}
    (hsuf : SufOf s t) (h : hasMatchIn p s = true) : hasMatchIn p t = true := by
  rw [hasMatchIn_iff] at h ⊢
  obtain ⟨x, hx, hsome⟩ := h
  exact ⟨x, sufOf_trans hx hsuf, hsome⟩

theorem hasMatchIn_split {p : List Tok} {u w : List Char}
    (h : hasMatchIn p (u ++ w) = true) :
    (∃ s, SufOf s u ∧ s ≠ [] ∧ (runPat p (s ++ w)).isSome = true) ∨ hasMatchIn p w = true := by
  induction u with
  | nil => exact Or.inr (by simpa using h)
  | cons c u ih =>
    simp only [List.cons_append, hasMatchIn, Bool.or_eq_true] at h
    rcases h with h | h
    · exact Or.inl ⟨c :: u, sufOf_refl _, by simp, by simpa using h⟩
    · rcases ih h with ⟨s, hs, hne, hsome⟩ | h
      · exact Or.inl ⟨s, sufOf_cons c hs, hne, hsome⟩
      · exact Or.inr h

theorem hasMatchIn_nil_false {p : List Tok} {t : List Char}
    (h : hasMatchIn p t = false) : runPat p [] = none := by
  induction t with
  | nil =>
    simp only [hasMatchIn] at h
    cases hr : runPat p [] with
    | none => rfl
    | some v => rw [hr] at h; simp at h
  | cons c cs ih =>
    simp only [hasMatchIn, Bool.or_eq_false_iff] at h
    exact ih h.2

theorem hasMatchIn_tail {p : List Tok} {c : Char} {cs : List Char}
    (h : hasMatchIn p (c :: cs) = false) :
    runPat p (c :: cs) = none ∧ hasMatchIn p cs = false := by
  simp only [hasMatchIn, Bool.or_eq_false_iff] at h
  obtain ⟨h1, h2⟩ := h
  refine ⟨?_, h2⟩
  cases hr : runPat p (c :: cs) with
  | none => rfl
  | some v => rw [hr] at h1; simp at h1

/-! ### Unfolding `subAll` -/

theorem subSkip_skip (p : List Tok) (r : List Char) :
    ∀ (n : Nat) (cs : List Char), n ≤ cs.length →
      subSkip p r n cs = subSkip p r 0 (cs.drop n) := by
  intro n
  induction n with
  | zero => intro cs _; rfl
  | succ n ih =>
    intro cs hn
    cases cs with
    | nil => simp at hn
    | cons c cs' =>
      have : subSkip p r (n + 1) (c :: cs') = subSkip p r n cs' := rfl
      rw [this, ih cs' (by simpa using hn)]
      rfl

theorem runPat_no_zero_width {p : List Tok} {c : Char} {cs rest : List Char}
    (hemp : runPat p [] = none) (h : runPat p (c :: cs) = some rest) :
    rest.length ≤ cs.length := by
  simp only [runPat] at h
  by_cases hd : doneAt p c = true
  · have hnul : nullable p = true := doneAt_nullable hd
    simp [runPat, hnul] at hemp
  · rw [if_neg hd] at h
    cases hst : stepTok p c with
    | none => rw [hst] at h; cases h
    | some q =>
      rw [hst] at h
      exact sufOf_length (runPat_suffix h)

theorem subAll_nil (p : List Tok) (r : List Char) :
    subAll p r [] = if (runPat p []).isSome then r else [] := rfl

theorem subAll_cons_none {p : List Tok} {r : List Char} {c : Char} {cs : List Char}
    (h : runPat p (c :: cs) = none) :
    subAll p r (c :: cs) = c :: subAll p r cs := by
  simp [subAll, subSkip, h]

theorem subAll_cons_some {p : List Tok} {r : List Char} {c : Char} {cs rest : List Char}
    (h : runPat p (c :: cs) = some rest) (hlen : rest.length ≤ cs.length) :
    subAll p r (c :: cs) = r ++ subAll p r rest := by
  have hsuf : SufOf rest cs := by
    rcases sufOf_cons_elim (runPat_suffix h) with rfl | hs
    · simp at hlen
    · exact hs
  have hdrop : rest = cs.drop (cs.length - rest.length) := sufOf_eq_drop hsuf
  have hne : ¬ rest.length = cs.length + 1 := by omega
  simp only [subAll, subSkip, h, if_neg hne]
  congr 1
  rw [subSkip_skip p r _ cs (by omega), ← hdrop]

/-! ### Chunk decomposition of `subAll` output

`subAll p r t` is an interleaving of untouched chunks of `t` with copies of
`r`.  Each chunk has the property that none of its non-empty suffixes can
start a match of `p` in some right context (otherwise the scanner would have
replaced there). -/

theorem sufOf_nil {s : List Char} (h : SufOf s []) : s = [] := by
  obtain ⟨a, ha⟩ := h
  exact (List.append_eq_nil.mp ha).2

theorem joinR_cons_cons (r : List Char) (c : Char) (u : List Char) (us : List (List Char)) :
    joinR r ((c :: u) :: us) = c :: joinR r (u :: us) := by
  cases us with
  | nil => rfl
  | cons v vs => simp [joinR]

theorem chunkOk_nil (p : List Tok) : ChunkOk p [] := by
  intro s hne hsuf
  exact absurd (sufOf_nil hsuf) hne

theorem subAll_chunks (p : List Tok) (r : List Char) (hemp : runPat p [] = none) :
    ∀ t : List Char, ∃ u1 us, subAll p r t = joinR r (u1 :: us) ∧ PreOf u1 t ∧
      (∀ u ∈ us, PieceOf u t) ∧ ChunkOk p u1 ∧ (∀ u ∈ us, ChunkOk p u) := by
  suffices H : ∀ (n : Nat) (t : List Char), t.length ≤ n →
      ∃ u1 us, subAll p r t = joinR r (u1 :: us) ∧ PreOf u1 t ∧
        (∀ u ∈ us, PieceOf u t) ∧ ChunkOk p u1 ∧ (∀ u ∈ us, ChunkOk p u) by
    exact fun t => H t.length t le_rfl
  intro n
  induction n with
  | zero =>
    intro t ht
    have ht0 : t = [] := by
      cases t with
      | nil => rfl
      | cons c cs => simp at ht
    subst ht0
    refine ⟨[], [], ?_, ⟨[], rfl⟩, by simp, chunkOk_nil p, by simp⟩
    simp [subAll, subSkip, hemp, joinR]
  | succ n ih =>
    intro t ht
    cases t with
    | nil =>
      refine ⟨[], [], ?_, ⟨[], rfl⟩, by simp, chunkOk_nil p, by simp⟩
      simp [subAll, subSkip, hemp, joinR]
    | cons c cs =>
      cases hr : runPat p (c :: cs) with
      | none =>
        obtain ⟨u1, us, heq, hpre, hpieces, hok1, hoks⟩ :=
          ih cs (by simp at ht; omega)
        refine ⟨c :: u1, us, ?_, ?_, ?_, ?_, hoks⟩
        · rw [subAll_cons_none hr, heq, joinR_cons_cons]
        · obtain ⟨b, hb⟩ := hpre
          exact ⟨b, by simp [hb]⟩
        · intro u hu
          exact pieceOf_cons c (hpieces u hu)
        · intro s hne hsuf
          rcases sufOf_cons_elim hsuf with rfl | hs
          · obtain ⟨b, hb⟩ := hpre
            refine ⟨b, ?_⟩
            have hcb : (c :: u1) ++ b = c :: cs := by simp [hb]
            rw [hcb]
            exact hr
          · exact hok1 s hne hs
      | some rest =>
        have hlen := runPat_no_zero_width hemp hr
        have hrest_suf : SufOf rest (c :: cs) := runPat_suffix hr
        obtain ⟨u1, us, heq, hpre, hpieces, hok1, hoks⟩ :=
          ih rest (by simp at ht; omega)
        refine ⟨[], u1 :: us, ?_, ⟨c :: cs, rfl⟩, ?_, chunkOk_nil p, ?_⟩
        · rw [subAll_cons_some hr hlen, heq]
          simp [joinR]
        · intro u hu
          rcases List.mem_cons.mp hu with rfl | hu'
          · obtain ⟨b, hb⟩ := hpre
            obtain ⟨a, ha⟩ := hrest_suf
            exact ⟨a, b, by rw [hb, ha]⟩
          · obtain ⟨x, y, hxy⟩ := hpieces u hu'
            obtain ⟨a, ha⟩ := hrest_suf
            exact ⟨a ++ x, y, by rw [List.append_assoc, hxy, ha]⟩
        · intro u hu
          rcases List.mem_cons.mp hu with rfl | hu'
          · exact hok1
          · exact hoks u hu'

/-! ### No match survives or is created: the core argument -/

theorem chunk_match_contra {p : List Tok} {u w : List Char}
    (hok : ChunkOk p u)
    (hwnone : ∀ q ∈ stateList p, runPat q w = none)
    {s : List Char} (hne : s ≠ []) (hsuf : SufOf s u)
    (hsome : (runPat p (s ++ w)).isSome = true) : False := by
  obtain ⟨y, hy⟩ := hok s hne hsuf
  cases hres : runPart p s with
  | failed =>
    rw [runPart_failed_append hres w] at hsome
    simp at hsome
  | inner =>
    have := runPart_inner_append hres y
    rw [hy] at this
    simp at this
  | consumed q =>
    rcases runPart_reach hres with rfl | hq
    · have := runPart_consumed_append hres y
      rw [hy, runPat_nil_state] at this
      cases this
    · rw [runPart_consumed_append hres w, hwnone q hq] at hsome
      simp at hsome

theorem joinR_nomatch {p : List Tok} {r : List Char}
    (Hs : ∀ q ∈ stateList p, runPart q r = PRes.failed)
    (Hk : ∀ k, k < r.length → runPart p (r.drop k) = PRes.failed)
    (Hq0 : ∀ q ∈ stateList p, runPat q [] = none)
    (He : runPat p [] = none) :
    ∀ us : List (List Char), (∀ u ∈ us, ChunkOk p u) →
      hasMatchIn p (joinR r us) = false := by
  intro us
  induction us with
  | nil => intro _; simp [joinR, hasMatchIn, He]
  | cons u us' ih =>
    intro hoks
    cases us' with
    | nil =>
      rw [Bool.eq_false_iff]
      intro hm
      have hJ : joinR r [u] = u := rfl
      rw [hJ, hasMatchIn_iff] at hm
      obtain ⟨s, hsuf, hsome⟩ := hm
      by_cases hne : s = []
      · rw [hne, He] at hsome
        simp at hsome
      · refine chunk_match_contra (hoks u (by simp)) (fun q hq => Hq0 q hq) hne hsuf ?_
        rw [List.append_nil]
        exact hsome
    | cons v vs =>
      rw [Bool.eq_false_iff]
      intro hm
      have hJ : joinR r (u :: v :: vs) = u ++ (r ++ joinR r (v :: vs)) := by simp [joinR]
      rw [hJ] at hm
      rcases hasMatchIn_split hm with ⟨s, hsuf, hne, hsome⟩ | hm2
      · exact chunk_match_contra (hoks u (by simp))
          (fun q hq => runPart_failed_append (Hs q hq) (joinR r (v :: vs))) hne hsuf hsome
      · rcases hasMatchIn_split hm2 with ⟨s', hsuf', hne', hsome'⟩ | hm3
        · have hsl := sufOf_length hsuf'
          have hpos : 0 < s'.length := List.length_pos.mpr hne'
          have hfail := Hk (r.length - s'.length) (by omega)
          rw [← sufOf_eq_drop hsuf'] at hfail
          rw [runPart_failed_append hfail (joinR r (v :: vs))] at hsome'
          simp at hsome'
        · have hoff := ih (fun x hx => hoks x (List.mem_cons_of_mem u hx))
          rw [hoff] at hm3
          exact Bool.noConfusion hm3

/-! ### Assembling the idempotence argument -/

theorem noCross_spec {p : List Tok} {r : List Char} (h : noCross p r = true) :
    (∀ q ∈ stateList p, runPart q r = PRes.failed) ∧
    (∀ k, k < r.length → runPart p (r.drop k) = PRes.failed) := by
  simp only [noCross, Bool.and_eq_true, List.all_eq_true, decide_eq_true_eq,
    List.mem_range] at h
  exact h

/-- After `re.sub p r`, the text contains no match of `p` anywhere. -/
theorem subAll_self_nomatch {p : List Tok} {r : List Char}
    (hcross : noCross p r = true)
    (Hq0 : ∀ q ∈ stateList p, runPat q [] = none)
    (He : runPat p [] = none) (t : List Char) :
    hasMatchIn p (subAll p r t) = false := by
  obtain ⟨u1, us, heq, _, _, hok1, hoks⟩ := subAll_chunks p r He t
  rw [heq]
  obtain ⟨Hs, Hk⟩ := noCross_spec hcross
  apply joinR_nomatch Hs Hk Hq0 He
  intro u hu
  rcases List.mem_cons.mp hu with rfl | hu'
  · exact hok1
  · exact hoks u hu'

/-- `re.sub p' r'` cannot create a match of an unrelated pattern `p` when
none existed, because no match of `p` can overlap an inserted copy of `r'`. -/
theorem subAll_preserve {p : List Tok} {r' : List Char} (p' : List Tok)
    (hcross : noCross p r' = true)
    (Hq0 : ∀ q ∈ stateList p, runPat q [] = none)
    (hemp' : runPat p' [] = none)
    {t : List Char} (hno : hasMatchIn p t = false) :
    hasMatchIn p (subAll p' r' t) = false := by
  have He : runPat p [] = none := hasMatchIn_nil_false hno
  obtain ⟨u1, us, heq, hpre, hpieces, _, _⟩ := subAll_chunks p' r' hemp' t
  rw [heq]
  obtain ⟨Hs, Hk⟩ := noCross_spec hcross
  apply joinR_nomatch Hs Hk Hq0 He
  have hchunk : ∀ u, PieceOf u t → ChunkOk p u := by
    intro u hpiece s hne hsuf
    obtain ⟨b, hb⟩ := pieceOf_of_sufOf_piece hpiece hsuf
    refine ⟨b, ?_⟩
    cases hrb : runPat p (s ++ b) with
    | none => rfl
    | some v =>
      exfalso
      have hmt : hasMatchIn p (s ++ b) = true := by
        rw [hasMatchIn_iff]
        exact ⟨s ++ b, sufOf_refl _, by simp [hrb]⟩
      have hmt2 := hasMatchIn_of_suffix hb hmt
      rw [hno] at hmt2
      exact Bool.noConfusion hmt2
  intro u hu
  rcases List.mem_cons.mp hu with rfl | hu'
  · exact hchunk u (preOf_pieceOf hpre)
  · exact hchunk u (hpieces u hu')

/-- `re.sub` leaves a text with no match untouched. -/
theorem subAll_id {p : List Tok} {r t : List Char}
    (hno : hasMatchIn p t = false) : subAll p r t = t := by
  induction t with
  | nil =>
    have h := hasMatchIn_nil_false hno
    simp [subAll, subSkip, h]
  | cons c cs ih =>
    obtain ⟨h1, h2⟩ := hasMatchIn_tail hno
    rw [subAll_cons_none h1, ih h2]

theorem applyRules_cons (pr : List Tok × List Char) (l : List (List Tok × List Char))
    (t : List Char) : applyRules (pr :: l) t = applyRules l (subAll pr.1 pr.2 t) := rfl

theorem transform_eq_applyRules (t : List Char) : transform t = applyRules replacements t := rfl

theorem applyRules_preserve (l : List (List Tok × List Char)) {p : List Tok}
    (H : ∀ pr ∈ l, noCross p pr.2 = true ∧ runPat pr.1 [] = none)
    (Hq0 : ∀ q ∈ stateList p, runPat q [] = none) :
    ∀ {t : List Char}, hasMatchIn p t = false → hasMatchIn p (applyRules l t) = false := by
  induction l with
  | nil => intro t h; exact h
  | cons pr l' ih =>
    intro t h
    rw [applyRules_cons]
    have hH := H pr (by simp)
    exact ih (fun x hx => H x (by simp [hx])) (subAll_preserve pr.1 hH.1 Hq0 hH.2 h)

theorem applyRules_no_match (l : List (List Tok × List Char)) {p : List Tok} {r : List Char}
    (hmem : (p, r) ∈ l)
    (H : ∀ pr ∈ l, noCross p pr.2 = true ∧ runPat pr.1 [] = none)
    (Hq0 : ∀ q ∈ stateList p, runPat q [] = none) :
    ∀ t : List Char, hasMatchIn p (applyRules l t) = false := by
  induction l with
  | nil => cases hmem
  | cons pr l' ih =>
    intro t
    rw [applyRules_cons]
    rcases List.mem_cons.mp hmem with heq | hmem'
    · have hH := H pr (by simp)
      have hself : hasMatchIn p (subAll pr.1 pr.2 t) = false := by
        have hp1 : pr.1 = p := by rw [← heq]
        rw [hp1]
        refine subAll_self_nomatch hH.1 Hq0 ?_ t
        rw [← hp1]
        exact hH.2
      exact applyRules_preserve l' (fun x hx => H x (by simp [hx])) Hq0 hself
    · exact ih hmem' (fun x hx => H x (by simp [hx])) (subAll pr.1 pr.2 t)

theorem applyRules_id (l : List (List Tok × List Char)) :
    ∀ {t : List Char}, (∀ pr ∈ l, hasMatchIn pr.1 t = false) → applyRules l t = t := by
  induction l with
  | nil => intro t _; rfl
  | cons pr l' ih =>
    intro t h
    rw [applyRules_cons, subAll_id (h pr (by simp))]
    exact ih (fun x hx => h x (by simp [hx]))

/-- Decided: no match attempt of any rule's pattern can overlap any rule's
inserted replacement string. -/
theorem rules_noCross_all :
    (replacements.all fun a => replacements.all fun b => noCross a.1 b.2) = true := by decide

/-- Decided: no rule's pattern, nor any of its matcher states, matches the
empty string. -/
theorem rules_empty_all :
    (replacements.all fun a =>
      decide (runPat a.1 [] = none) &&
      ((stateList a.1).all fun q => decide (runPat q [] = none))) = true := by decide

theorem rules_noCross {a b : List Tok × List Char}
    (ha : a ∈ replacements) (hb : b ∈ replacements) : noCross a.1 b.2 = true := by
  have h := rules_noCross_all
  rw [List.all_eq_true] at h
  have h2 := h a ha
  rw [List.all_eq_true] at h2
  exact h2 b hb

theorem rules_empty {a : List Tok × List Char} (ha : a ∈ replacements) :
    runPat a.1 [] = none ∧ ∀ q ∈ stateList a.1, runPat q [] = none := by
  have h := rules_empty_all
  rw [List.all_eq_true] at h
  have h2 := h a ha
  simp only [Bool.and_eq_true, decide_eq_true_eq, List.all_eq_true] at h2
  exact h2

/-- After one full pass of the rewriter, no rule pattern matches anywhere. -/
theorem transform_no_match {pr : List Tok × List Char} (hmem : pr ∈ replacements)
    (t : List Char) : hasMatchIn pr.1 (transform t) = false := by
  rw [transform_eq_applyRules]
  refine applyRules_no_match replacements (p := pr.1) (r := pr.2) (by simpa using hmem)
    (fun x hx => ⟨rules_noCross hmem hx, (rules_empty hx).1⟩) (rules_empty hmem).2 t

/-! ### Scanner loop lemmas -/

theorem scanFile_err {fs : FSys} {p e : String} (hr : fsRead fs p = Except.error e) :
    scanFile fs p = ⟨[FsOp.read p], [ScanLine.warn p e], []⟩ := by
  unfold scanFile
  simp only [hr]

theorem scanFile_needsFix {fs : FSys} {p : String} {c : List Char}
    (hr : fsRead fs p = Except.ok c) (hc : classifyContent c = FileClass.needsFix) :
    scanFile fs p = ⟨[FsOp.read p], [ScanLine.bad p], [p]⟩ := by
  unfold scanFile
  simp only [hr, hc]

theorem scanFile_compliant {fs : FSys} {p : String} {c : List Char}
    (hr : fsRead fs p = Except.ok c) (hc : classifyContent c = FileClass.compliant) :
    scanFile fs p = ⟨[FsOp.read p], [ScanLine.good p], []⟩ := by
  unfold scanFile
  simp only [hr, hc]

theorem scanFile_noMarker {fs : FSys} {p : String} {c : List Char}
    (hr : fsRead fs p = Except.ok c) (hc : classifyContent c = FileClass.noMarker) :
    scanFile fs p = ⟨[FsOp.read p], [], []⟩ := by
  unfold scanFile
  simp only [hr, hc]

theorem scanLoop_append (fs : FSys) (xs ys : List String) :
    scanLoop fs (xs ++ ys) =
      ⟨(scanLoop fs xs).ops ++ (scanLoop fs ys).ops,
       (scanLoop fs xs).lines ++ (scanLoop fs ys).lines,
       (scanLoop fs xs).fix ++ (scanLoop fs ys).fix⟩ := by
  induction xs with
  | nil => simp [scanLoop]
  | cons p ps ih => simp [scanLoop, ih]

theorem scanLoop_ops (fs : FSys) (paths : List String) :
    (scanLoop fs paths).ops = paths.map FsOp.read := by
  induction paths with
  | nil => rfl
  | cons p ps ih =>
    have hfile : (scanFile fs p).ops = [FsOp.read p] := by
      cases hr : fsRead fs p with
      | error e => rw [scanFile_err hr]
      | ok c =>
        cases hc : classifyContent c with
        | needsFix => rw [scanFile_needsFix hr hc]
        | compliant => rw [scanFile_compliant hr hc]
        | noMarker => rw [scanFile_noMarker hr hc]
    simp [scanLoop, hfile, ih]

theorem applyOps_reads (fs : FSys) (qs : List String) :
    applyOps fs (qs.map FsOp.read) = fs := by
  induction qs with
  | nil => rfl
  | cons q qs ih => simpa [applyOps, applyOp] using ih

theorem mem_fix_read_ok {fs : FSys} {paths : List String} {q : String}
    (h : q ∈ (scanLoop fs paths).fix) :
    ∃ c, fsRead fs q = Except.ok c ∧ classifyContent c = FileClass.needsFix := by
  induction paths with
  | nil => simp [scanLoop] at h
  | cons p ps ih =>
    simp only [scanLoop, List.mem_append] at h
    rcases h with h | h
    · cases hr : fsRead fs p with
      | error e =>
        rw [scanFile_err hr] at h
        simp at h
      | ok c =>
        cases hc : classifyContent c with
        | needsFix =>
          rw [scanFile_needsFix hr hc] at h
          simp at h
          subst h
          exact ⟨c, hr, hc⟩
        | compliant =>
          rw [scanFile_compliant hr hc] at h
          simp at h
        | noMarker =>
          rw [scanFile_noMarker hr hc] at h
          simp at h
    · exact ih h

/-! ### The claims -/

/-- C1: for every file whose text contains the marker `global.fetch`, the
Scanner classifies it "needs fix" exactly when the legacy regex matches and
the literal `headers:` does not occur anywhere in the text; in every other
case (in particular whenever `headers:` occurs, even alongside the legacy
pattern) it classifies the file "already compliant". -/
theorem claim1_scanner_classification (c : List Char) (h : containsSub markerS c = true) :
    (classifyContent c = FileClass.needsFix ↔
      (legacySearch c = true ∧ containsSub headersS c = false)) ∧
    (classifyContent c = FileClass.compliant ↔
      ¬(legacySearch c = true ∧ containsSub headersS c = false)) := by
  unfold classifyContent
  rw [if_pos h]
  cases hl : legacySearch c <;> cases hh : containsSub headersS c <;> simp

/-- Witness for C1 at concrete content: marker, legacy pattern and `headers:`
all present; the classification is "already compliant" (the precedence case). -/
theorem claim1_scanner_classification_witness :
    containsSub markerS c1w = true ∧
    ((classifyContent c1w = FileClass.needsFix ↔
      (legacySearch c1w = true ∧ containsSub headersS c1w = false)) ∧
    (classifyContent c1w = FileClass.compliant ↔
      ¬(legacySearch c1w = true ∧ containsSub headersS c1w = false))) :=
  ⟨by decide, claim1_scanner_classification c1w (by decide)⟩

/-- C2 counterexample: the rewriter's rule list has ten entries, not nine as
the claim states. -/
theorem claim2_counterexample :
    replacements.length = 10 ∧ ¬ replacements.length = 9 := by
  exact ⟨rfl, by decide⟩

/-- C2 amended: the rule list consists of ten call-expression shapes; on an
input containing exactly one instance of each of the ten shapes the output is
exactly the ten transformed calls, contains each transformed call, and no
residual match of any original shape. -/
theorem claim2_amended :
    (replacements.all fun pr => decide (countPos pr.1 c2Input = 1)) = true ∧
    transform c2Input = c2Output ∧
    (replacements.all fun pr => containsSub pr.2 c2Output) = true ∧
    (replacements.all fun pr => !(hasMatchIn pr.1 c2Output)) = true :=
  ⟨by decide, by decide, by decide, by decide⟩

/-- C3: the rewriter's text transformation is idempotent — a second
application of the full ordered rule list changes nothing, for every input. -/
theorem claim3_idempotent (t : List Char) : transform (transform t) = transform t := by
  rw [transform_eq_applyRules (transform t)]
  exact applyRules_id replacements (fun pr hpr => transform_no_match hpr t)

/-- C4: on a file where no pattern matches, the rewriter completes without
error, reports the rule-list length (ten) as the applied count, and writes
back byte-identical content. -/
theorem claim4_rewriter_all_miss (fs : FSys) (path : String) (c : List Char)
    (hread : fsRead fs path = Except.ok c)
    (hno : ∀ pr ∈ replacements, hasMatchIn pr.1 c = false) :
    runRewriter fs path = some (fsWrite fs path c, 10) ∧
    transform c = c ∧ replacements.length = 10 := by
  have hid : transform c = c := by
    rw [transform_eq_applyRules]
    exact applyRules_id replacements hno
  refine ⟨?_, hid, rfl⟩
  unfold runRewriter
  simp only [hread, hid]
  rfl

/-- Witness for C4: a concrete pattern-free file. -/
theorem claim4_rewriter_all_miss_witness :
    fsRead c4fs ("weatherApi.test.js") = Except.ok c4content ∧
    runRewriter c4fs ("weatherApi.test.js") =
      some (fsWrite c4fs ("weatherApi.test.js") c4content, 10) ∧
    transform c4content = c4content := by
  have h := claim4_rewriter_all_miss c4fs ("weatherApi.test.js") c4content rfl (by decide)
  exact ⟨rfl, h.1, h.2.1⟩

/-- C5: a file whose read fails produces a warning line naming the path and
the error, is never added to the needs-fix list, and the rest of the scan is
unaffected. -/
theorem claim5_read_failure (fs : FSys) (pre post : List String) (p e : String)
    (h : fsRead fs p = Except.error e) :
    (scanLoop fs (pre ++ p :: post)).lines =
      (scanLoop fs pre).lines ++ ScanLine.warn p e :: (scanLoop fs post).lines ∧
    (scanLoop fs (pre ++ p :: post)).fix =
      (scanLoop fs pre).fix ++ (scanLoop fs post).fix ∧
    p ∉ (scanLoop fs (pre ++ p :: post)).fix := by
  have hfile := scanFile_err h
  refine ⟨?_, ?_, ?_⟩
  · simp [scanLoop_append, scanLoop, hfile]
  · simp [scanLoop_append, scanLoop, hfile]
  · intro hmem
    obtain ⟨c, hc, _⟩ := mem_fix_read_ok hmem
    rw [h] at hc
    simp at hc

/-- Witness for C5: scanning a good file, a missing file, and the good file
again. -/
theorem claim5_read_failure_witness :
    fsRead c5fs ("b.test.js") = Except.error ("No such file: b.test.js") ∧
    (scanLoop c5fs (["a.test.js"] ++ ("b.test.js") :: ["a.test.js"])).lines =
      (scanLoop c5fs ["a.test.js"]).lines ++
        ScanLine.warn ("b.test.js") ("No such file: b.test.js") ::
          (scanLoop c5fs ["a.test.js"]).lines ∧
    ("b.test.js") ∉ (scanLoop c5fs (["a.test.js"] ++ ("b.test.js") :: ["a.test.js"])).fix := by
  have h := claim5_read_failure c5fs ["a.test.js"] ["a.test.js"] ("b.test.js")
    ("No such file: b.test.js") rfl
  exact ⟨rfl, h.1, h.2.2⟩

/-- C6 counterexample: in this run the post-processing summary is exactly a
separator plus a zero fix count — the total-files-scanned figure (`found 1`)
appears in the full output but not in the post-processing summary. -/
theorem claim6_counterexample :
    scanSummary c6fs c6paths = [ScanLine.sep, ScanLine.fixCount 0] ∧
    ScanLine.found c6paths.length ∉ scanSummary c6fs c6paths ∧
    ScanLine.found c6paths.length ∈ scannerOutput c6fs c6paths := by
  refine ⟨by decide, by decide, by decide⟩

/-- C6 amended: the post-processing summary consists of the separator, the
needing-fix count and the needing-fix paths; the total-files-scanned figure
never appears in the summary — it is printed before processing, at the head
of the full output. -/
theorem claim6_amended (fs : FSys) (paths : List String) :
    scanSummary fs paths =
      ScanLine.sep :: ScanLine.fixCount (scanLoop fs paths).fix.length ::
        ((scanLoop fs paths).fix.map ScanLine.fixPath) ∧
    (∀ n : Nat, ScanLine.found n ∉ scanSummary fs paths) ∧
    scannerOutput fs paths =
      ScanLine.found paths.length :: ((scanLoop fs paths).lines ++ scanSummary fs paths) := by
  refine ⟨rfl, ?_, rfl⟩
  intro n hmem
  simp only [scanSummary, List.mem_cons] at hmem
  rcases hmem with h | h | h
  · exact ScanLine.noConfusion h
  · exact ScanLine.noConfusion h
  · rw [List.mem_map] at h
    obtain ⟨x, _, hx⟩ := h
    exact ScanLine.noConfusion hx

/-- Witness for C6 amended, at the concrete counterexample run. -/
theorem claim6_amended_witness :
    (ScanLine.found c6paths.length ∉ scanSummary c6fs c6paths) ∧
    scannerOutput c6fs c6paths =
      ScanLine.found c6paths.length ::
        ((scanLoop c6fs c6paths).lines ++ scanSummary c6fs c6paths) :=
  ⟨(claim6_amended c6fs c6paths).2.1 c6paths.length, (claim6_amended c6fs c6paths).2.2⟩

/-- C7: a file without the `global.fetch` marker is classified `noMarker`,
gets no per-file output line, and is never listed as needing fix. -/
theorem claim7_no_marker (fs : FSys) (p : String) (c : List Char)
    (hread : fsRead fs p = Except.ok c)
    (hmark : containsSub markerS c = false) :
    classifyContent c = FileClass.noMarker ∧
    scanFile fs p = ⟨[FsOp.read p], [], []⟩ ∧
    ∀ paths : List String, p ∉ (scanLoop fs paths).fix := by
  have hclass : classifyContent c = FileClass.noMarker := by
    simp [classifyContent, hmark]
  refine ⟨hclass, scanFile_noMarker hread hclass, ?_⟩
  intro paths hmem
  obtain ⟨c', hc', hcl⟩ := mem_fix_read_ok hmem
  rw [hread] at hc'
  injection hc' with hcc
  rw [← hcc] at hcl
  rw [hclass] at hcl
  exact FileClass.noConfusion hcl

/-- Witness for C7 at a concrete marker-free file. -/
theorem claim7_no_marker_witness :
    fsRead c6fs ("t1.test.js") = Except.ok c6content ∧
    containsSub markerS c6content = false ∧
    classifyContent c6content = FileClass.noMarker ∧
    scanFile c6fs ("t1.test.js") = ⟨[FsOp.read ("t1.test.js")], [], []⟩ ∧
    ("t1.test.js") ∉ (scanLoop c6fs c6paths).fix := by
  have h := claim7_no_marker c6fs ("t1.test.js") c6content rfl (by decide)
  exact ⟨rfl, by decide, h.1, h.2.1, h.2.2 c6paths⟩

/-- C8: the scanner's filesystem effects are reads only, so running them
leaves every file's content unchanged: a read-only audit. -/
theorem claim8_scanner_readonly (fs : FSys) (paths : List String) :
    applyOps fs (scanLoop fs paths).ops = fs ∧
    ∀ op ∈ (scanLoop fs paths).ops, isWriteOp op = false := by
  have hops := scanLoop_ops fs paths
  constructor
  · rw [hops]
    exact applyOps_reads fs paths
  · intro op hop
    rw [hops, List.mem_map] at hop
    obtain ⟨q, _, rfl⟩ := hop
    rfl

/-- Witness for C8 at a concrete run. -/
theorem claim8_scanner_readonly_witness :
    applyOps c6fs (scanLoop c6fs c6paths).ops = c6fs ∧
    isWriteOp (FsOp.read ("t1.test.js")) = false :=
  ⟨(claim8_scanner_readonly c6fs c6paths).1,
   (claim8_scanner_readonly c6fs c6paths).2 (FsOp.read ("t1.test.js")) (by decide)⟩

/-- C9: the legacy regex cannot cross a closing brace — every match exhibits
a whitespace gap followed by `{` and a `}`-free run before `json:`; and the
concrete nested-brace mock (marker present, `headers:` absent) is classified
"already compliant". -/
theorem claim9_regex_brace :
    (∀ t : List Char, legacySearch t = true →
      ∃ a w m b, t = a ++ promiseLit ++ (w ++ '\x7b' :: (m ++ (jsonLit ++ b))) ∧
        w.all isSpaceChar = true ∧ m.all (fun c => !(c == '\x7d')) = true) ∧
    containsSub markerS c9nested = true ∧
    containsSub headersS c9nested = false ∧
    legacySearch c9nested = false ∧
    classifyContent c9nested = FileClass.compliant :=
  ⟨fun _ h => legacySearch_sound h, by decide, by decide, by decide, by decide⟩

/-- Witness for C9: a text on which the regex does match, decomposed. -/
theorem claim9_regex_brace_witness :
    legacySearch c9wit = true ∧
    (∃ a w m b, c9wit = a ++ promiseLit ++ (w ++ '\x7b' :: (m ++ (jsonLit ++ b))) ∧
      w.all isSpaceChar = true ∧ m.all (fun c => !(c == '\x7d')) = true) :=
  ⟨by decide, claim9_regex_brace.1 c9wit (by decide)⟩

/-- C10: whenever the read succeeds, the rewriter performs exactly one write,
unconditionally — even when the transformation changes nothing. -/
theorem claim10_always_writes (fs : FSys) (path : String) (c : List Char)
    (hread : fsRead fs path = Except.ok c) :
    rewriterOps fs path = [FsOp.read path, FsOp.write path (transform c)] ∧
    (rewriterOps fs path).filter isWriteOp = [FsOp.write path (transform c)] := by
  have h1 : rewriterOps fs path = [FsOp.read path, FsOp.write path (transform c)] := by
    unfold rewriterOps
    simp only [hread]
  refine ⟨h1, ?_⟩
  rw [h1]
  rfl

/-- Witness for C10: the write happens even on an unchanged file. -/
theorem claim10_always_writes_witness :
    fsRead c4fs ("weatherApi.test.js") = Except.ok c4content ∧
    transform c4content = c4content ∧
    rewriterOps c4fs ("weatherApi.test.js") =
      [FsOp.read ("weatherApi.test.js"),
       FsOp.write ("weatherApi.test.js") (transform c4content)] := by
  have h := claim10_always_writes c4fs ("weatherApi.test.js") c4content rfl
  exact ⟨rfl, by decide, h.1⟩

end Meteo
